import Mathlib

/-!
Verification development for the arXiv agent tool module
(`multi_tool_agent/arxiv_agent.py`).

The module's pure logic is shallowly embedded here:

* the two regular expressions used by `_extract_arxiv_id` are embedded as
  abstract syntax trees over character classes, and Python's `re.search`
  (leftmost position, first-alternative priority, greedy backtracking) is
  embedded as an executable continuation-passing matcher;
* the stop-word table, tokenization (`re.split(r"\W+", ...)` over the
  lower-cased question), substring containment (Python's `in` on strings)
  and the keyword-counting heuristic are embedded as executable functions;
* the three tool operations are embedded with the external `arxiv` client
  abstracted as an `Except`-valued argument (an exception raised by the
  client is its `Except.error` message); `summarize_arxiv_paper` and
  `answer_paper_question` additionally return the number of client
  invocations performed, instrumenting the single external call the source
  makes after input validation.
-/

/-- Character classes occurring in the two source regexes:
`\d`, `[a-zA-Z.-]`, and literal characters. -/
inductive CC where
  | digit : CC
  | adw : CC
  | lit : Char → CC
deriving DecidableEq

/-- Semantics of a character class, matching Python `re` on ASCII input. -/
def ccMatch : CC → Char → Bool
  | .digit, c => decide ('0' ≤ c) && decide (c ≤ '9')
  | .adw, c =>
      (decide ('a' ≤ c) && decide (c ≤ 'z')) ||
      (decide ('A' ≤ c) && decide (c ≤ 'Z')) ||
      decide (c = '.') || decide (c = '-')
  | .lit a, c => decide (c = a)

/-- Regular expression abstract syntax: empty string, character class,
concatenation, prioritized alternation, and greedy Kleene star. -/
inductive Regex where
  | eps : Regex
  | cls : CC → Regex
  | cat : Regex → Regex → Regex
  | alt : Regex → Regex → Regex
  | star : Regex → Regex

/-- Greedy `r?` : try `r` first, then the empty alternative. -/
def ropt (r : Regex) : Regex := .alt r .eps

/-- Greedy `r+` : one occurrence followed by a greedy star. -/
def rplus (r : Regex) : Regex := .cat r (.star r)

/-- A single `\d`. -/
def dig : Regex := .cls .digit

/-- A single `[a-zA-Z.-]`. -/
def adwC : Regex := .cls .adw

/-- A literal character. -/
def chr (c : Char) : Regex := .cls (.lit c)

/-- `\d{n}` as an `n`-fold concatenation. -/
def digitsN : Nat → Regex
  | 0 => .eps
  | n + 1 => .cat dig (digitsN n)

/-- `(v\d+)?` from the first (broad) source regex. -/
def vSuffixPlus : Regex := ropt (.cat (chr 'v') (.cat dig (.star dig)))

/-- `(v\d)?` from the second (stricter) source regex: note the single
version digit, in contrast with `vSuffixPlus`. -/
def vSuffixOne : Regex := ropt (.cat (chr 'v') dig)

/-- The modern arXiv id shape `\d{4}\.\d{4,5}(v\d+)?`
(`\d{4,5}` is four digits then an optional fifth). -/
def shape1 : Regex :=
  .cat (digitsN 4) (.cat (chr '.') (.cat (digitsN 4) (.cat (ropt dig) vSuffixPlus)))

/-- The legacy arXiv id shape `[a-zA-Z.-]+/\d{7}(v\d+)?`. -/
def shape2 : Regex :=
  .cat (rplus adwC) (.cat (chr '/') (.cat (digitsN 7) vSuffixPlus))

/-- The first (broad) regex of `_extract_arxiv_id`:
`(\d{4}\.\d{4,5}(v\d+)?|[a-zA-Z.-]+/\d{7}(v\d+)?)`. -/
def broadRe : Regex := .alt shape1 shape2

/-- First alternative of the second (stricter) regex:
`[a-zA-Z.-]*\d{4}\.\d{4,5}(v\d)?`. -/
def strictModern : Regex :=
  .cat (.star adwC)
    (.cat (digitsN 4) (.cat (chr '.') (.cat (digitsN 4) (.cat (ropt dig) vSuffixOne))))

/-- Second alternative of the second (stricter) regex:
`[a-zA-Z.-]+/\d{7}(v\d)?`. -/
def strictLegacy : Regex :=
  .cat (rplus adwC) (.cat (chr '/') (.cat (digitsN 7) vSuffixOne))

/-- The second (stricter) regex of `_extract_arxiv_id`:
`([a-zA-Z.-]*\d{4}\.\d{4,5}(v\d)?|[a-zA-Z.-]+/\d{7}(v\d)?)`. -/
def strictRe : Regex := .alt strictModern strictLegacy

/-- Greedy star loop of the backtracking matcher: try one more iteration of
the body `mr` (which must consume at least one character) before falling
back to the continuation `k`.  The fuel is initialized to one more than the
string length at star entry, which the progress guard makes sufficient. -/
def mstar (mr : List Char → (List Char → Option (List Char)) → Option (List Char)) :
    Nat → List Char → (List Char → Option (List Char)) → Option (List Char)
  | 0, s, k => k s
  | fuel + 1, s, k =>
    match mr s (fun s2 => if s2.length < s.length then mstar mr fuel s2 k else none) with
    | some out => some out
    | none => k s

/-- Backtracking matcher in continuation-passing style.  `mch r s k` tries
the ways `r` can match a prefix of `s`, in Python `re` priority order
(alternation left first, star greedy), calling `k` on the corresponding
rest of the string; the first success wins. -/
def mch : Regex → List Char → (List Char → Option (List Char)) → Option (List Char)
  | .eps, s, k => k s
  | .cls cc, s, k =>
    match s with
    | [] => none
    | c :: t => if ccMatch cc c then k t else none
  | .cat r1 r2, s, k => mch r1 s (fun s2 => mch r2 s2 k)
  | .alt r1 r2, s, k =>
    match mch r1 s k with
    | some out => some out
    | none => mch r2 s k
  | .star r, s, k => mstar (mch r) (s.length + 1) s k

/-- Attempt a match of `r` anchored at the start of `s`; on success return
the matched text (the consumed prefix). -/
def tryAt (r : Regex) (s : List Char) : Option (List Char) :=
  match mch r s some with
  | some rest => some (s.take (s.length - rest.length))
  | none => none

/-- Python `re.search`: try each start position from left to right and
return the first match's text (`match.group(0)`). -/
def reSearch (r : Regex) : List Char → Option (List Char)
  | [] => tryAt r []
  | c :: t =>
    match tryAt r (c :: t) with
    | some m => some m
    | none => reSearch r t

/-- `_extract_arxiv_id`: search with the broad regex; inside the broad
match text, search again with the stricter regex, falling back to the
broad match text if the stricter search fails. -/
def _extract_arxiv_id (id_or_url : String) : Option String :=
  match reSearch broadRe id_or_url.data with
  | none => none
  | some m =>
    match reSearch strictRe m with
    | some core => some (String.mk core)
    | none => some (String.mk m)

/-- The module-level `STOP_WORDS` set, in source order. -/
def STOP_WORDS : List String :=
  ["a", "an", "the", "is", "are", "was", "were", "be", "been", "being",
   "have", "has", "had", "do", "does", "did", "will", "would", "should",
   "can", "could", "may", "might", "must", "and", "but", "or", "nor",
   "for", "so", "yet", "in", "on", "at", "by", "from", "to", "with",
   "about", "above", "after", "again", "against", "all", "am", "as",
   "because", "before", "below", "between", "both", "during", "each",
   "few", "further", "here", "how", "i", "if", "into", "it", "its",
   "itself", "just", "me", "more", "most", "my", "myself", "no", "not",
   "now", "of", "off", "once", "only", "other", "our", "ours",
   "ourselves", "out", "over", "own", "same", "she", "he", "they",
   "them", "their", "theirs", "themselves", "then", "there", "these",
   "this", "those", "through", "too", "under", "until", "up", "very",
   "we", "what", "when", "where", "which", "while", "who", "whom",
   "why", "you", "your", "yours", "yourself", "yourselves"]

/-- Python `str.lower()` on ASCII: per-character lower-casing. -/
def lowerStr (s : String) : String := String.mk (s.data.map Char.toLower)

/-- Python `\w` on ASCII: letters, digits, underscore. -/
def isWordChar (c : Char) : Bool := c.isAlpha || c.isDigit || c == '_'

/-- Python `re.split(r"\W+", s)`: split on maximal runs of non-word
characters (a leading or trailing run contributes an empty piece). -/
def splitNonWord : List Char → List (List Char)
  | [] => [[]]
  | c :: t =>
    match splitNonWord t with
    | [] => [[]]
    | g :: gs =>
      if isWordChar c then (c :: g) :: gs
      else
        match g with
        | [] => g :: gs
        | _ :: _ => [] :: g :: gs

/-- The question tokenization of `answer_paper_question`: lower-case, split
on `\W+`, drop empty tokens and stop words. -/
def question_words (question : String) : List String :=
  ((splitNonWord (lowerStr question).data).map (fun w => String.mk w)).filter
    (fun word => (word != "") && !(STOP_WORDS.contains word))

/-- Prefix test used to implement substring containment. -/
def leadsWith : List Char → List Char → Bool
  | [], _ => true
  | _ :: _, [] => false
  | a :: as, b :: bs => a == b && leadsWith as bs

/-- Python's `needle in hay` on strings: substring containment. -/
def containsSub (needle : List Char) : List Char → Bool
  | [] => needle.isEmpty
  | c :: t => leadsWith needle (c :: t) || containsSub needle t

/-- Python `s.split("/")`. -/
def splitOnSlash : List Char → List (List Char)
  | [] => [[]]
  | c :: t =>
    match splitOnSlash t with
    | [] => [[]]
    | g :: gs => if c == '/' then [] :: g :: gs else (c :: g) :: gs

/-- `entry_id.split("/")[-1]`: the trailing path segment. -/
def lastSegment (s : String) : String :=
  String.mk ((splitOnSlash s.data).getLastD [])

/-- An author object from the external `arxiv` client (only `.name` is
consumed). -/
structure Author where
  name : String
deriving DecidableEq

/-- A result object from the external `arxiv` client.  `published_date`
models the already-formatted `result.published.strftime("%Y-%m-%d")`
output, the date formatting being external library behavior. -/
structure ArxivResult where
  title : String
  authors : List Author
  published_date : String
  summary : String
  entry_id : String
  primary_category : String
  pdf_url : String
deriving DecidableEq

/-- The paper dictionary the operations build from a client result. -/
structure PaperDetails where
  title : String
  authors : List String
  published_date : String
  summary : String
  arxiv_id : String
  primary_category : String
  pdf_link : String
deriving DecidableEq

/-- The `answer_type` values of `answer_paper_question`. -/
inductive AnswerType where
  | not_enough_keywords : AnswerType
  | found_in_abstract : AnswerType
  | not_found_in_abstract : AnswerType
deriving DecidableEq

/-- The result dictionaries of the three operations: a success payload per
operation shape, or `{"status": "error", "message": ...}`. -/
inductive Envelope where
  | searchSuccess : List PaperDetails → Option String → Envelope
  | summarySuccess : PaperDetails → Envelope
  | answerSuccess : AnswerType → String → String → String → Envelope
  | error : String → Envelope
deriving DecidableEq

/-- The paper dictionary construction shared by the operations. -/
def mkPaperDetails (r : ArxivResult) : PaperDetails :=
  { title := r.title
    authors := r.authors.map (fun a => a.name)
    published_date := r.published_date
    summary := r.summary
    arxiv_id := lastSegment r.entry_id
    primary_category := r.primary_category
    pdf_link := r.pdf_url }

/-- `search_arxiv_papers`.  The client argument is the outcome of the
external `arxiv.Search(...).results()` call for the query: a raised
exception's message, or the (up to 5) result objects. -/
def search_arxiv_papers (client : Except String (List ArxivResult)) : Envelope :=
  match client with
  | .error e => .error e
  | .ok results =>
    let papers_list := results.map mkPaperDetails
    if papers_list.isEmpty then
      .searchSuccess [] (some "No papers found matching your query.")
    else
      .searchSuccess papers_list none

/-- `summarize_arxiv_paper`.  The client argument models
`next(arxiv.Search(id_list=[arxiv_id]).results(), None)` keyed by the
extracted id: a raised exception's message, or the optional first result.
The second component counts external client invocations. -/
def summarize_arxiv_paper (client : String → Except String (Option ArxivResult))
    (arxiv_id_or_url : String) : Envelope × Nat :=
  match _extract_arxiv_id arxiv_id_or_url with
  | none => (.error "Invalid arXiv ID or URL format.", 0)
  | some arxiv_id =>
    match client arxiv_id with
    | .error e => (.error e, 1)
    | .ok none => (.error "Paper not found or invalid ID.", 1)
    | .ok (some paper) => (.summarySuccess (mkPaperDetails paper), 1)

/-- `answer_paper_question`.  The client argument is as in
`summarize_arxiv_paper`; the second component counts external client
invocations.  The source comparison `found_keywords > len(question_words) / 2`
uses Python float division, which is exact here (the quotient of a machine
integer by 2); it is embedded as the equivalent integer comparison
`2 * found_keywords > len(question_words)`, and the equivalence with the
exact-division reading is proved in the theorem for claim C2 below. -/
def answer_paper_question (client : String → Except String (Option ArxivResult))
    (arxiv_id_or_url question : String) : Envelope × Nat :=
  match _extract_arxiv_id arxiv_id_or_url with
  | none => (.error "Invalid arXiv ID or URL format.", 0)
  | some arxiv_id =>
    match client arxiv_id with
    | .error e => (.error ("An error occurred: " ++ e), 1)
    | .ok none => (.error ("Paper with ID \x27" ++ arxiv_id ++ "\x27 not found."), 1)
    | .ok (some paper) =>
      let abstract := paper.summary
      let title := paper.title
      let qws := question_words question
      if qws.isEmpty then
        (.answerSuccess .not_enough_keywords
          "Your question did not contain enough significant keywords after removing common words. Please try a more specific question."
          abstract title, 1)
      else
        let abstract_lower := lowerStr abstract
        let found_keywords := qws.countP (fun word => containsSub word.data abstract_lower.data)
        if (2 * found_keywords > qws.length) then
          (.answerSuccess .found_in_abstract
            "The abstract may contain information relevant to your question. Please review it."
            abstract title, 1)
        else
          (.answerSuccess .not_found_in_abstract
            "I could not find specific information for your question in the paper\x27s abstract."
            abstract title, 1)

/-- A concrete client result used by witness theorems. -/
def samplePaper : ArxivResult :=
  { title := "T"
    authors := [{ name := "A" }]
    published_date := "2023-03-20"
    summary := "neural study of things"
    entry_id := "http://arxiv.org/abs/2303.10130v1"
    primary_category := "cs.LG"
    pdf_url := "p" }

/-- Modelled from the claim (C10): the keyword classification recomputed
over the set of distinct question tokens rather than over the token list
with multiplicity, for comparison with `answer_paper_question`. -/
def answer_type_dedup (question abstract : String) : AnswerType :=
  let qws := (question_words question).dedup
  if qws.isEmpty then .not_enough_keywords
  else if 2 * (qws.countP (fun word => containsSub word.data (lowerStr abstract).data)) > qws.length then
    .found_in_abstract
  else .not_found_in_abstract

/-- The integer threshold of the embedding coincides with the source's
float-division threshold `found > total / 2` read in exact arithmetic. -/
theorem two_mul_gt_iff_div (f n : Nat) : (2 * f > n) ↔ ((n : ℚ) / 2 < (f : ℚ)) := by
  rw [div_lt_iff₀ (by norm_num : (0 : ℚ) < 2)]
  constructor
  · intro h
    exact_mod_cast (by omega : n < f * 2)
  · intro h
    have hn : n < f * 2 := by exact_mod_cast h
    omega

/-- C1: for an input that consists exactly of a modern arXiv identifier
with a multi-digit version suffix, `_extract_arxiv_id` does not return the
input unchanged: the stricter second regex allows only one version digit
(`(v\d)?` against the broad regex's `(v\d+)?`), so `"2303.10130v12"` is
returned truncated to `"2303.10130v1"`, contradicting the claim that any
version suffix is retained. -/
theorem c1_version_suffix_truncated :
    _extract_arxiv_id "2303.10130v12" = some "2303.10130v1" ∧
      ("2303.10130v1" : String) ≠ "2303.10130v12" := by
  constructor
  · decide
  · decide

/-- C5: the spec's concrete extractor vectors: a legacy id is returned
unchanged, an id embedded in an abstract URL is extracted with its
(single-digit) version suffix, and text with no id yields `none`. -/
theorem c5_concrete_vectors :
    _extract_arxiv_id "hep-th/0101001" = some "hep-th/0101001" ∧
      _extract_arxiv_id "https://arxiv.org/abs/2303.10130v2" = some "2303.10130v2" ∧
      _extract_arxiv_id "no id here" = none := by
  refine ⟨by decide, by decide, by decide⟩

/-- C8: when the external client yields zero results, `search_arxiv_papers`
returns a success envelope with an empty papers array and an explanatory
message, not an error envelope. -/
theorem c8_empty_search_success :
    search_arxiv_papers (Except.ok []) =
      Envelope.searchSuccess [] (some "No papers found matching your query.") := by
  decide

/-- C3 counterexample: when the external client raises `"boom"`,
`answer_paper_question` returns an error envelope whose message is
`"An error occurred: boom"`, which is not the raised message verbatim. -/
theorem c3_answer_message_not_verbatim :
    (answer_paper_question (fun _ => Except.error "boom") "2303.10130" "q").1 =
        Envelope.error "An error occurred: boom" ∧
      ("An error occurred: boom" : String) ≠ "boom" := by
  constructor
  · decide
  · decide

/-- C3 (amended): when the external client raises, `search_arxiv_papers`
and `summarize_arxiv_paper` return an error envelope carrying the raised
message verbatim, while `answer_paper_question` returns it prefixed with
`"An error occurred: "`. -/
theorem c3_error_envelopes (e input id question : String)
    (client : String → Except String (Option ArxivResult))
    (hex : _extract_arxiv_id input = some id)
    (hcl : client id = Except.error e) :
    search_arxiv_papers (Except.error e) = Envelope.error e ∧
      summarize_arxiv_paper client input = (Envelope.error e, 1) ∧
      answer_paper_question client input question =
        (Envelope.error ("An error occurred: " ++ e), 1) := by
  refine ⟨rfl, ?_, ?_⟩
  · simp only [summarize_arxiv_paper, hex, hcl]
  · simp only [answer_paper_question, hex, hcl]

/-- C3 witness: the amended statement at a concrete raised message. -/
theorem c3_error_envelopes_witness :
    search_arxiv_papers (Except.error "boom") = Envelope.error "boom" ∧
      summarize_arxiv_paper (fun _ => Except.error "boom") "2303.10130" =
        (Envelope.error "boom", 1) ∧
      answer_paper_question (fun _ => Except.error "boom") "2303.10130" "q" =
        (Envelope.error ("An error occurred: " ++ "boom"), 1) :=
  c3_error_envelopes "boom" "2303.10130" "2303.10130" "q"
    (fun _ => Except.error "boom") (by decide) rfl

/-- C7: when the extractor yields nothing, `summarize_arxiv_paper` and
`answer_paper_question` return the invalid-format error envelope
immediately and the external client is invoked zero times. -/
theorem c7_invalid_id_short_circuits (input question : String)
    (hex : _extract_arxiv_id input = none)
    (clientS clientA : String → Except String (Option ArxivResult)) :
    summarize_arxiv_paper clientS input = (Envelope.error "Invalid arXiv ID or URL format.", 0) ∧
      answer_paper_question clientA input question =
        (Envelope.error "Invalid arXiv ID or URL format.", 0) := by
  constructor
  · simp only [summarize_arxiv_paper, hex]
  · simp only [answer_paper_question, hex]

/-- C7 witness: the short circuit at a concrete unparseable input. -/
theorem c7_invalid_id_short_circuits_witness :
    summarize_arxiv_paper (fun _ => Except.ok none) "no id here" =
        (Envelope.error "Invalid arXiv ID or URL format.", 0) ∧
      answer_paper_question (fun _ => Except.ok none) "no id here" "q" =
        (Envelope.error "Invalid arXiv ID or URL format.", 0) :=
  c7_invalid_id_short_circuits "no id here" "q" (by decide)
    (fun _ => Except.ok none) (fun _ => Except.ok none)

/-- C2: with at least one token surviving tokenization and stop-word
removal, `answer_paper_question` classifies `found_in_abstract` exactly
when the number of surviving tokens occurring as substrings of the
lower-cased abstract strictly exceeds half the surviving-token count under
real-number division, and `not_found_in_abstract` otherwise. -/
theorem c2_threshold_classification (client : String → Except String (Option ArxivResult))
    (input question id : String) (paper : ArxivResult)
    (hex : _extract_arxiv_id input = some id)
    (hcl : client id = Except.ok (some paper))
    (hne : question_words question ≠ []) :
    ((answer_paper_question client input question).1 =
        Envelope.answerSuccess AnswerType.found_in_abstract
          "The abstract may contain information relevant to your question. Please review it."
          paper.summary paper.title
      ↔ (((question_words question).length : ℚ) / 2 <
          ((question_words question).countP
            (fun word => containsSub word.data (lowerStr paper.summary).data) : ℚ))) ∧
    ((answer_paper_question client input question).1 =
        Envelope.answerSuccess AnswerType.not_found_in_abstract
          "I could not find specific information for your question in the paper\x27s abstract."
          paper.summary paper.title
      ↔ ¬ (((question_words question).length : ℚ) / 2 <
          ((question_words question).countP
            (fun word => containsSub word.data (lowerStr paper.summary).data) : ℚ))) := by
  have hemp : (question_words question).isEmpty = false := by
    cases h : question_words question with
    | nil => exact absurd h hne
    | cons a t => rfl
  rw [← two_mul_gt_iff_div]
  simp only [answer_paper_question, hex, hcl, hemp, Bool.false_eq_true, if_false]
  by_cases h : 2 * ((question_words question).countP
      (fun word => containsSub word.data (lowerStr paper.summary).data)) >
      (question_words question).length
  · simp [h]
  · simp [h]

/-- C2 witness: both directions of the characterization at a concrete
paper and question (two of three token occurrences match, and 2 > 3/2). -/
theorem c2_threshold_classification_witness :
    ((answer_paper_question (fun _ => Except.ok (some samplePaper))
        "2303.10130" "neural neural banana").1 =
        Envelope.answerSuccess AnswerType.found_in_abstract
          "The abstract may contain information relevant to your question. Please review it."
          samplePaper.summary samplePaper.title
      ↔ (((question_words "neural neural banana").length : ℚ) / 2 <
          ((question_words "neural neural banana").countP
            (fun word => containsSub word.data (lowerStr samplePaper.summary).data) : ℚ))) ∧
    ((answer_paper_question (fun _ => Except.ok (some samplePaper))
        "2303.10130" "neural neural banana").1 =
        Envelope.answerSuccess AnswerType.not_found_in_abstract
          "I could not find specific information for your question in the paper\x27s abstract."
          samplePaper.summary samplePaper.title
      ↔ ¬ (((question_words "neural neural banana").length : ℚ) / 2 <
          ((question_words "neural neural banana").countP
            (fun word => containsSub word.data (lowerStr samplePaper.summary).data) : ℚ))) :=
  c2_threshold_classification _ "2303.10130" "neural neural banana" "2303.10130" samplePaper
    (by decide) rfl (by decide)

/-- C6: when every nonempty token of the lower-cased, `\W+`-split question
is a stop word, `answer_paper_question` returns a success envelope
classified `not_enough_keywords`, for every fetched paper alike (the
abstract's content is not consulted for the classification). -/
theorem c6_all_stop_words (client : String → Except String (Option ArxivResult))
    (input question id : String) (paper : ArxivResult)
    (hex : _extract_arxiv_id input = some id)
    (hcl : client id = Except.ok (some paper))
    (hstop : ∀ w ∈ (splitNonWord (lowerStr question).data).map (fun l => String.mk l),
      w ≠ "" → w ∈ STOP_WORDS) :
    (answer_paper_question client input question).1 =
      Envelope.answerSuccess AnswerType.not_enough_keywords
        "Your question did not contain enough significant keywords after removing common words. Please try a more specific question."
        paper.summary paper.title := by
  have hq : question_words question = [] := by
    rw [question_words, List.filter_eq_nil_iff]
    intro w hw
    by_cases hwe : w = ""
    · simp [hwe]
    · simp [hwe]
      exact hstop w hw hwe
  have hemp : (question_words question).isEmpty = true := by rw [hq]; rfl
  simp only [answer_paper_question, hex, hcl, hemp, if_true]

/-- C6 witness: the all-stop-words question `"the a an"` against a concrete
paper. -/
theorem c6_all_stop_words_witness :
    (answer_paper_question (fun _ => Except.ok (some samplePaper))
        "2303.10130" "the a an").1 =
      Envelope.answerSuccess AnswerType.not_enough_keywords
        "Your question did not contain enough significant keywords after removing common words. Please try a more specific question."
        samplePaper.summary samplePaper.title :=
  c6_all_stop_words _ "2303.10130" "the a an" "2303.10130" samplePaper
    (by decide) rfl (by decide)

/-- C10: the keyword scorer counts question tokens with multiplicity: there
is a question with a repeated token (its token list is
`["neural", "neural", "banana"]`) that `answer_paper_question` classifies
`found_in_abstract` (2 of 3 occurrences match, 2 > 3/2) while the same
computation over the distinct tokens classifies `not_found_in_abstract`
(1 of 2 matches, 1 is not > 2/2). -/
theorem c10_multiplicity_matters :
    ∃ (question : String) (paper : ArxivResult)
      (client : String → Except String (Option ArxivResult)),
      question_words question = ["neural", "neural", "banana"] ∧
      (answer_paper_question client "2303.10130" question).1 =
        Envelope.answerSuccess AnswerType.found_in_abstract
          "The abstract may contain information relevant to your question. Please review it."
          paper.summary paper.title ∧
      answer_type_dedup question paper.summary = AnswerType.not_found_in_abstract :=
  ⟨"neural neural banana", samplePaper, fun _ => Except.ok (some samplePaper),
    by decide, by decide, by decide⟩

/-- Language semantics of the regex syntax. -/
inductive lang : Regex → List Char → Prop where
  | eps : lang .eps []
  | cls {cc : CC} {c : Char} : ccMatch cc c = true → lang (.cls cc) [c]
  | cat {r1 r2 : Regex} {u v : List Char} :
      lang r1 u → lang r2 v → lang (.cat r1 r2) (u ++ v)
  | altL {r1 r2 : Regex} {u : List Char} : lang r1 u → lang (.alt r1 r2) u
  | altR {r1 r2 : Regex} {u : List Char} : lang r2 u → lang (.alt r1 r2) u
  | starNil {r : Regex} : lang (.star r) []
  | starCons {r : Regex} {u v : List Char} :
      lang r u → lang (.star r) v → lang (.star r) (u ++ v)

/-- Splitting off a suffix of an append by length. -/
theorem takeAppendSub (p q : List Char) :
    (p ++ q).take ((p ++ q).length - q.length) = p := by
  rw [List.length_append, Nat.add_sub_cancel, List.take_left]

/-- Soundness of the star loop: a success splits the string into a star
iteration block and a rest accepted by the continuation. -/
theorem mstarSound (r : Regex)
    (hmr : ∀ s k out, mch r s k = some out →
      ∃ u s2, s = u ++ s2 ∧ lang r u ∧ k s2 = some out) :
    ∀ fuel s k out, mstar (mch r) fuel s k = some out →
      ∃ u s2, s = u ++ s2 ∧ lang (.star r) u ∧ k s2 = some out := by
  intro fuel
  induction fuel with
  | zero =>
    intro s k out h
    exact ⟨[], s, rfl, lang.starNil, h⟩
  | succ n ih =>
    intro s k out h
    rw [mstar] at h
    cases hm : mch r s
        (fun s2 => if s2.length < s.length then mstar (mch r) n s2 k else none) with
    | some o =>
      rw [hm] at h
      cases h
      obtain ⟨u1, s1, hs, hl1, hg⟩ := hmr _ _ _ hm
      by_cases hlen : s1.length < s.length
      · rw [if_pos hlen] at hg
        obtain ⟨u2, s2, hs1, hl2, hk⟩ := ih _ _ _ hg
        refine ⟨u1 ++ u2, s2, ?_, lang.starCons hl1 hl2, hk⟩
        rw [hs, hs1, List.append_assoc]
      · rw [if_neg hlen] at hg
        exact absurd hg (by simp)
    | none =>
      rw [hm] at h
      exact ⟨[], s, rfl, lang.starNil, h⟩

/-- Soundness of the matcher: a success splits the string into a prefix in
the regex's language and a rest accepted by the continuation. -/
theorem mchSound : ∀ (r : Regex) (s : List Char) (k : List Char → Option (List Char))
    (out : List Char), mch r s k = some out →
      ∃ u s2, s = u ++ s2 ∧ lang r u ∧ k s2 = some out := by
  intro r
  induction r with
  | eps =>
    intro s k out h
    exact ⟨[], s, rfl, lang.eps, h⟩
  | cls cc =>
    intro s k out h
    cases s with
    | nil => simp [mch] at h
    | cons c t =>
      rw [mch] at h
      by_cases hc : ccMatch cc c = true
      · rw [if_pos hc] at h
        exact ⟨[c], t, rfl, lang.cls hc, h⟩
      · rw [if_neg hc] at h
        exact absurd h (by simp)
  | cat r1 r2 ih1 ih2 =>
    intro s k out h
    rw [mch] at h
    obtain ⟨u1, s1, hs, hl1, h1⟩ := ih1 _ _ _ h
    obtain ⟨u2, s2, hs1, hl2, h2⟩ := ih2 _ _ _ h1
    refine ⟨u1 ++ u2, s2, ?_, lang.cat hl1 hl2, h2⟩
    rw [hs, hs1, List.append_assoc]
  | alt r1 r2 ih1 ih2 =>
    intro s k out h
    rw [mch] at h
    cases hm : mch r1 s k with
    | some o =>
      rw [hm] at h
      cases h
      obtain ⟨u, s2, hs, hl, hk⟩ := ih1 _ _ _ hm
      exact ⟨u, s2, hs, lang.altL hl, hk⟩
    | none =>
      rw [hm] at h
      obtain ⟨u, s2, hs, hl, hk⟩ := ih2 _ _ _ h
      exact ⟨u, s2, hs, lang.altR hl, hk⟩
  | star r ih =>
    intro s k out h
    rw [mch] at h
    exact mstarSound r ih _ _ _ _ h

/-- Soundness of the anchored attempt: the returned text is the consumed
prefix and lies in the regex's language. -/
theorem tryAtSound (r : Regex) (s m : List Char) (h : tryAt r s = some m) :
    ∃ rest, s = m ++ rest ∧ lang r m := by
  rw [tryAt] at h
  cases hm : mch r s Option.some with
  | none => rw [hm] at h; exact absurd h (by simp)
  | some rest =>
    rw [hm] at h
    cases h
    obtain ⟨u, s2, hs, hl, hk⟩ := mchSound _ _ _ _ hm
    have hs2 : s2 = rest := by injection hk
    subst hs2
    rw [hs, takeAppendSub]
    exact ⟨s2, rfl, hl⟩

/-- Soundness of the search: a found match text lies in the regex's
language. -/
theorem reSearchSound (r : Regex) : ∀ (s m : List Char),
    reSearch r s = some m → lang r m := by
  intro s
  induction s with
  | nil =>
    intro m h
    rw [reSearch] at h
    obtain ⟨rest, _, hl⟩ := tryAtSound r [] m h
    exact hl
  | cons c t ih =>
    intro m h
    rw [reSearch] at h
    cases ht : tryAt r (c :: t) with
    | some mm =>
      rw [ht] at h
      cases h
      obtain ⟨rest, _, hl⟩ := tryAtSound _ _ _ ht
      exact hl
    | none =>
      rw [ht] at h
      exact ih m h

/-- Step equation: epsilon passes the string through. -/
theorem mch_eps (s : List Char) (k : List Char → Option (List Char)) :
    mch .eps s k = k s := rfl

/-- Step equation: a class fails on the empty string. -/
theorem mch_cls_nil (cc : CC) (k : List Char → Option (List Char)) :
    mch (.cls cc) [] k = none := rfl

/-- Step equation: a class consumes one matching character. -/
theorem mch_cls_cons (cc : CC) (c : Char) (t : List Char)
    (k : List Char → Option (List Char)) :
    mch (.cls cc) (c :: t) k = if ccMatch cc c then k t else none := rfl

/-- Step equation: concatenation sequences continuations. -/
theorem mch_cat (r1 r2 : Regex) (s : List Char) (k : List Char → Option (List Char)) :
    mch (.cat r1 r2) s k = mch r1 s (fun s2 => mch r2 s2 k) := rfl

/-- Step equation: alternation tries the left branch first. -/
theorem mch_alt (r1 r2 : Regex) (s : List Char) (k : List Char → Option (List Char)) :
    mch (.alt r1 r2) s k =
      (match mch r1 s k with
       | some out => some out
       | none => mch r2 s k) := rfl

/-- Step equation: star enters the fueled loop. -/
theorem mch_star (r : Regex) (s : List Char) (k : List Char → Option (List Char)) :
    mch (.star r) s k = mstar (mch r) (s.length + 1) s k := rfl

/-- Alternation with a successful left branch. -/
theorem mch_alt_some {r1 r2 : Regex} {s out : List Char}
    {k : List Char → Option (List Char)} (h : mch r1 s k = some out) :
    mch (.alt r1 r2) s k = some out := by
  rw [mch_alt, h]

/-- Alternation with a failing left branch. -/
theorem mch_alt_none {r1 r2 : Regex} {s : List Char}
    {k : List Char → Option (List Char)} (h : mch r1 s k = none) :
    mch (.alt r1 r2) s k = mch r2 s k := by
  rw [mch_alt, h]

/-- Step equation: the star loop at positive fuel. -/
theorem mstar_succ (mr : List Char → (List Char → Option (List Char)) → Option (List Char))
    (n : Nat) (s : List Char) (k : List Char → Option (List Char)) :
    mstar mr (n + 1) s k =
      (match mr s (fun s2 => if s2.length < s.length then mstar mr n s2 k else none) with
       | some out => some out
       | none => k s) := rfl

/-- A boolean that is not true is false. -/
theorem bool_eq_false {b : Bool} (h : ¬ b = true) : b = false := by
  cases b
  · rfl
  · exact absurd rfl h

/-- Digit class membership as code-point bounds. -/
theorem ccDigit_iff {c : Char} : ccMatch .digit c = true ↔ (48 ≤ c.toNat ∧ c.toNat ≤ 57) := by
  simp only [ccMatch, Bool.and_eq_true, decide_eq_true_eq]
  constructor
  · intro h
    exact ⟨by exact_mod_cast h.1, by exact_mod_cast h.2⟩
  · intro h
    exact ⟨by exact_mod_cast h.1, by exact_mod_cast h.2⟩

/-- A digit character is not in `[a-zA-Z.-]`. -/
theorem digit_not_adw {c : Char} (h : ccMatch .digit c = true) : ccMatch .adw c = false := by
  rw [ccDigit_iff] at h
  apply bool_eq_false
  intro ha
  simp only [ccMatch, Bool.or_eq_true, Bool.and_eq_true, decide_eq_true_eq] at ha
  rcases ha with ((⟨ha1, ha2⟩ | ⟨hA1, hA2⟩) | hdot) | hdash
  · have h97 : 97 ≤ c.toNat := by exact_mod_cast ha1
    omega
  · have h90 : c.toNat ≤ 90 := by exact_mod_cast hA2
    have h65 : 65 ≤ c.toNat := by exact_mod_cast hA1
    omega
  · subst hdot
    exact absurd h (by decide)
  · subst hdash
    exact absurd h (by decide)

/-- A `[a-zA-Z.-]` character is not a digit. -/
theorem adw_not_digit {c : Char} (h : ccMatch .adw c = true) : ccMatch .digit c = false := by
  apply bool_eq_false
  intro hd
  exact absurd h (by simp [digit_not_adw hd])

/-- Consuming `n` digits: `digitsN n` passes over an all-digit block of
length `n` and hands the rest to the continuation. -/
theorem mchDigits : ∀ (n : Nat) (u rest : List Char) (k : List Char → Option (List Char)),
    u.length = n → (∀ c ∈ u, ccMatch .digit c = true) →
    mch (digitsN n) (u ++ rest) k = k rest := by
  intro n
  induction n with
  | zero =>
    intro u rest k hl hd
    have hu : u = [] := List.length_eq_zero.mp hl
    subst hu
    rw [List.nil_append]
    exact mch_eps rest k
  | succ m ih =>
    intro u rest k hl hd
    cases u with
    | nil => simp at hl
    | cons c t =>
      have hc : ccMatch .digit c = true := hd c (by simp)
      simp only [digitsN, List.cons_append]
      rw [mch_cat, dig, mch_cls_cons, if_pos hc]
      exact ih t rest k (by simpa using hl) (fun x hx => hd x (by simp [hx]))

/-- `digitsN (n+1)` fails on an empty string or a non-digit head. -/
theorem mchDigitsFail (n : Nat) (s : List Char) (k : List Char → Option (List Char))
    (h : s = [] ∨ ∃ c t, s = c :: t ∧ ccMatch .digit c = false) :
    mch (digitsN (n + 1)) s k = none := by
  simp only [digitsN]
  rw [mch_cat, dig]
  rcases h with rfl | ⟨c, t, rfl, hc⟩
  · exact mch_cls_nil _ _
  · rw [mch_cls_cons, if_neg (by simp [hc])]

/-- The greedy `[a-zA-Z.-]*` loop consumes a maximal all-class block and,
when the continuation accepts the rest, succeeds with it. -/
theorem mstarAdwAll : ∀ (cs rest : List Char) (fuel : Nat)
    (k : List Char → Option (List Char)) (out : List Char),
    (∀ c ∈ cs, ccMatch .adw c = true) →
    (rest = [] ∨ ∃ c t, rest = c :: t ∧ ccMatch .adw c = false) →
    cs.length < fuel →
    k rest = some out →
    mstar (mch adwC) fuel (cs ++ rest) k = some out := by
  intro cs
  induction cs with
  | nil =>
    intro rest fuel k out _ hrest hfuel hk
    cases fuel with
    | zero => omega
    | succ n =>
      rw [List.nil_append, mstar_succ]
      have hfail : mch adwC rest
          (fun s2 => if s2.length < rest.length then mstar (mch adwC) n s2 k else none) = none := by
        rcases hrest with rfl | ⟨c, t, rfl, hc⟩
        · exact mch_cls_nil _ _
        · rw [adwC, mch_cls_cons, if_neg (by simp [hc])]
      rw [hfail, hk]
  | cons c cs' ih =>
    intro rest fuel k out hcs hrest hfuel hk
    cases fuel with
    | zero => simp at hfuel
    | succ n =>
      rw [List.cons_append, mstar_succ]
      have hc : ccMatch .adw c = true := hcs c (by simp)
      have hstep : mch adwC (c :: (cs' ++ rest))
          (fun s2 => if s2.length < (c :: (cs' ++ rest)).length
            then mstar (mch adwC) n s2 k else none) = some out := by
        rw [adwC, mch_cls_cons, if_pos hc, if_pos (by simp)]
        exact ih rest n k out (fun x hx => hcs x (by simp [hx])) hrest (by simp at hfuel; omega) hk
      rw [hstep]

/-- The greedy `[a-zA-Z.-]*` loop fails when the continuation rejects
every backtracking point (every suffix obtained by dropping a prefix of
the all-class block). -/
theorem mstarAdwFail : ∀ (cs rest : List Char) (fuel : Nat)
    (k : List Char → Option (List Char)),
    (∀ c ∈ cs, ccMatch .adw c = true) →
    (rest = [] ∨ ∃ c t, rest = c :: t ∧ ccMatch .adw c = false) →
    cs.length < fuel →
    (∀ n, n ≤ cs.length → k (cs.drop n ++ rest) = none) →
    mstar (mch adwC) fuel (cs ++ rest) k = none := by
  intro cs
  induction cs with
  | nil =>
    intro rest fuel k _ hrest hfuel hknone
    cases fuel with
    | zero => omega
    | succ n =>
      rw [List.nil_append, mstar_succ]
      have hfail : mch adwC rest
          (fun s2 => if s2.length < rest.length then mstar (mch adwC) n s2 k else none) = none := by
        rcases hrest with rfl | ⟨c, t, rfl, hc⟩
        · exact mch_cls_nil _ _
        · rw [adwC, mch_cls_cons, if_neg (by simp [hc])]
      rw [hfail]
      exact hknone 0 (by simp)
  | cons c cs' ih =>
    intro rest fuel k hcs hrest hfuel hknone
    cases fuel with
    | zero => simp at hfuel
    | succ n =>
      rw [List.cons_append, mstar_succ]
      have hc : ccMatch .adw c = true := hcs c (by simp)
      have hstep : mch adwC (c :: (cs' ++ rest))
          (fun s2 => if s2.length < (c :: (cs' ++ rest)).length
            then mstar (mch adwC) n s2 k else none) = none := by
        rw [adwC, mch_cls_cons, if_pos hc, if_pos (by simp)]
        exact ih rest n k (fun x hx => hcs x (by simp [hx])) hrest
          (by simp at hfuel; omega)
          (fun m hm => by
            have := hknone (m + 1) (by simp; omega)
            simpa using this)
      rw [hstep]
      exact hknone 0 (by simp)

/-- The greedy optional digit consumes an optional digit block `o` exactly
when what follows cannot be a digit, provided the continuation accepts. -/
theorem mchOptDigSome {o vt out : List Char} {k : List Char → Option (List Char)}
    (ho : o = [] ∨ ∃ i, o = [i] ∧ ccMatch .digit i = true)
    (hvt : vt = [] ∨ ∃ j ds, vt = 'v' :: j :: ds)
    (hk : k vt = some out) :
    mch (ropt dig) (o ++ vt) k = some out := by
  rcases ho with rfl | ⟨i, rfl, hi⟩
  · rw [List.nil_append, ropt]
    have hfail : mch dig vt k = none := by
      rcases hvt with rfl | ⟨j, ds, rfl⟩
      · rw [dig]
        exact mch_cls_nil _ _
      · rw [dig, mch_cls_cons, if_neg (by decide)]
    rw [mch_alt_none hfail, mch_eps, hk]
  · simp only [List.cons_append, List.nil_append]
    rw [ropt]
    apply mch_alt_some
    rw [dig, mch_cls_cons, if_pos hi, hk]

/-- `(v\d)?` on an empty rest: the empty alternative fires. -/
theorem mchVOneNil {out : List Char} {k : List Char → Option (List Char)}
    (hk : k [] = some out) :
    mch vSuffixOne [] k = some out := by
  rw [vSuffixOne, ropt]
  have hfail : mch (.cat (chr 'v') dig) [] k = none := by
    rw [mch_cat, chr]
    exact mch_cls_nil _ _
  rw [mch_alt_none hfail, mch_eps, hk]

/-- `(v\d)?` on `v`, a digit, and a rest: exactly `v` and one digit are
consumed. -/
theorem mchVOneCons {j : Char} {ds out : List Char} {k : List Char → Option (List Char)}
    (hj : ccMatch .digit j = true) (hk : k ds = some out) :
    mch vSuffixOne ('v' :: j :: ds) k = some out := by
  rw [vSuffixOne, ropt]
  apply mch_alt_some
  rw [mch_cat, chr, mch_cls_cons, if_pos (by decide), dig, mch_cls_cons, if_pos hj, hk]

/-- The anchored attempt for a known matcher result. -/
theorem tryAtSome {r : Regex} {s rest : List Char} (h : mch r s Option.some = some rest) :
    tryAt r s = some (s.take (s.length - rest.length)) := by
  rw [tryAt, h]

/-- The search succeeds at the first position when the anchored attempt
does. -/
theorem reSearch_cons_some {r : Regex} {c : Char} {t m : List Char}
    (h : tryAt r (c :: t) = some m) : reSearch r (c :: t) = some m := by
  rw [reSearch, h]

/-- Full evaluation of the strict modern alternative on a broad modern
match: the leading `[a-zA-Z.-]*` consumes nothing (the head is a digit),
`\d{4}\.\d{4,5}` consumes the digit blocks, and `(v\d)?` consumes at most
`v` and one digit, leaving the remaining version digits unread. -/
theorem mchStrictModernEval (u1 u2 o vt leftover : List Char)
    (h1 : u1.length = 4) (hd1 : ∀ c ∈ u1, ccMatch .digit c = true)
    (h2 : u2.length = 4) (hd2 : ∀ c ∈ u2, ccMatch .digit c = true)
    (ho : o = [] ∨ ∃ i, o = [i] ∧ ccMatch .digit i = true)
    (hvt : (vt = [] ∧ leftover = []) ∨
      (∃ j ds, vt = 'v' :: j :: ds ∧ ccMatch .digit j = true ∧ leftover = ds)) :
    mch strictModern (u1 ++ '.' :: (u2 ++ (o ++ vt))) Option.some = some leftover := by
  obtain ⟨a, t1, rfl⟩ : ∃ a t1, u1 = a :: t1 := by
    cases u1 with
    | nil => simp at h1
    | cons a t1 => exact ⟨a, t1, rfl⟩
  have ha : ccMatch .digit a = true := hd1 a (by simp)
  rw [strictModern, mch_cat, mch_star]
  have hk1 : mch
      (.cat (digitsN 4) (.cat (chr '.') (.cat (digitsN 4) (.cat (ropt dig) vSuffixOne))))
      ((a :: t1) ++ '.' :: (u2 ++ (o ++ vt))) Option.some = some leftover := by
    rw [mch_cat, mchDigits 4 (a :: t1) ('.' :: (u2 ++ (o ++ vt))) _ h1 hd1]
    rw [mch_cat, chr, mch_cls_cons, if_pos (by decide)]
    rw [mch_cat, mchDigits 4 u2 (o ++ vt) _ h2 hd2]
    rw [mch_cat]
    apply mchOptDigSome ho
    · rcases hvt with ⟨rfl, rfl⟩ | ⟨j, ds, rfl, hj, rfl⟩
      · exact Or.inl rfl
      · exact Or.inr ⟨j, leftover, rfl⟩
    · rcases hvt with ⟨rfl, rfl⟩ | ⟨j, ds, rfl, hj, rfl⟩
      · exact mchVOneNil rfl
      · exact mchVOneCons hj rfl
  exact mstarAdwAll [] ((a :: t1) ++ '.' :: (u2 ++ (o ++ vt))) _ _ leftover
    (by simp)
    (Or.inr ⟨a, t1 ++ '.' :: (u2 ++ (o ++ vt)), by simp, digit_not_adw ha⟩)
    (Nat.succ_pos _)
    hk1

/-- The strict search on a broad modern match text succeeds at position 0
and returns the text with the version suffix truncated to at most one
digit. -/
theorem reSearchStrictOnModern (u1 u2 o vt VT : List Char)
    (h1 : u1.length = 4) (hd1 : ∀ c ∈ u1, ccMatch .digit c = true)
    (h2 : u2.length = 4) (hd2 : ∀ c ∈ u2, ccMatch .digit c = true)
    (ho : o = [] ∨ ∃ i, o = [i] ∧ ccMatch .digit i = true)
    (hvt : (vt = [] ∧ VT = []) ∨
      (∃ j ds, vt = 'v' :: j :: ds ∧ ccMatch .digit j = true ∧ VT = ['v', j])) :
    reSearch strictRe (u1 ++ '.' :: (u2 ++ (o ++ vt))) =
      some (u1 ++ '.' :: (u2 ++ (o ++ VT))) := by
  obtain ⟨leftover, hvt2, hsplit⟩ :
      ∃ leftover,
        ((vt = [] ∧ leftover = []) ∨
          (∃ j ds, vt = 'v' :: j :: ds ∧ ccMatch .digit j = true ∧ leftover = ds)) ∧
        u1 ++ '.' :: (u2 ++ (o ++ vt)) = (u1 ++ '.' :: (u2 ++ (o ++ VT))) ++ leftover := by
    rcases hvt with ⟨rfl, rfl⟩ | ⟨j, ds, rfl, hj, rfl⟩
    · exact ⟨[], Or.inl ⟨rfl, rfl⟩, by simp⟩
    · exact ⟨ds, Or.inr ⟨j, ds, rfl, hj, rfl⟩, by simp⟩
  have hm := mchStrictModernEval u1 u2 o vt leftover h1 hd1 h2 hd2 ho hvt2
  have hmalt : mch strictRe (u1 ++ '.' :: (u2 ++ (o ++ vt))) Option.some = some leftover := by
    rw [strictRe]
    exact mch_alt_some hm
  have ht := tryAtSome hmalt
  rw [hsplit, takeAppendSub] at ht
  rw [hsplit]
  obtain ⟨a, t1, rfl⟩ : ∃ a t1, u1 = a :: t1 := by
    cases u1 with
    | nil => simp at h1
    | cons a t1 => exact ⟨a, t1, rfl⟩
  simp only [List.cons_append] at ht ⊢
  exact reSearch_cons_some ht

/-- On a broad legacy match text the strict modern alternative fails: no
backtracking point of the leading `[a-zA-Z.-]*` is followed by a digit
(the category characters are non-digits and then comes `/`). -/
theorem mchStrictModernFailOnLegacy (cs d7 vt : List Char)
    (hcs : ∀ c ∈ cs, ccMatch .adw c = true) :
    mch strictModern (cs ++ '/' :: (d7 ++ vt)) Option.some = none := by
  rw [strictModern, mch_cat, mch_star]
  apply mstarAdwFail cs ('/' :: (d7 ++ vt)) _ _ hcs
    (Or.inr ⟨'/', d7 ++ vt, rfl, by decide⟩)
    (by simp [List.length_append]; omega)
  intro n hn
  rw [mch_cat]
  apply mchDigitsFail 3
  rcases Nat.lt_or_ge n cs.length with hlt | hge
  · refine Or.inr ⟨cs[n], cs.drop (n + 1) ++ '/' :: (d7 ++ vt), ?_, ?_⟩
    · rw [List.drop_eq_getElem_cons hlt, List.cons_append]
    · exact adw_not_digit (hcs cs[n] (List.getElem_mem hlt))
  · have hn2 : n = cs.length := by omega
    subst hn2
    rw [List.drop_length, List.nil_append]
    exact Or.inr ⟨'/', d7 ++ vt, rfl, by decide⟩

/-- Full evaluation of the strict legacy alternative on a broad legacy
match: `[a-zA-Z.-]+` consumes the whole category, `/\d{7}` consumes the
separator and seven digits, and `(v\d)?` consumes at most `v` and one
digit. -/
theorem mchStrictLegacyEval (cs d7 vt leftover : List Char)
    (hne : cs ≠ []) (hcs : ∀ c ∈ cs, ccMatch .adw c = true)
    (h7 : d7.length = 7) (hd7 : ∀ c ∈ d7, ccMatch .digit c = true)
    (hvt : (vt = [] ∧ leftover = []) ∨
      (∃ j ds, vt = 'v' :: j :: ds ∧ ccMatch .digit j = true ∧ leftover = ds)) :
    mch strictLegacy (cs ++ '/' :: (d7 ++ vt)) Option.some = some leftover := by
  obtain ⟨c, cs2, rfl⟩ : ∃ c cs2, cs = c :: cs2 := by
    cases cs with
    | nil => exact absurd rfl hne
    | cons c cs2 => exact ⟨c, cs2, rfl⟩
  have hc : ccMatch .adw c = true := hcs c (by simp)
  rw [strictLegacy, rplus, mch_cat, mch_cat, List.cons_append, adwC, mch_cls_cons,
    if_pos hc, mch_star]
  have hk2 : mch (.cat (chr '/') (.cat (digitsN 7) vSuffixOne))
      ('/' :: (d7 ++ vt)) Option.some = some leftover := by
    rw [mch_cat, chr, mch_cls_cons, if_pos (by decide)]
    rw [mch_cat, mchDigits 7 d7 vt _ h7 hd7]
    rcases hvt with ⟨rfl, rfl⟩ | ⟨j, ds, rfl, hj, rfl⟩
    · exact mchVOneNil rfl
    · exact mchVOneCons hj rfl
  exact mstarAdwAll cs2 ('/' :: (d7 ++ vt)) _ _ leftover
    (fun x hx => hcs x (by simp [hx]))
    (Or.inr ⟨'/', d7 ++ vt, rfl, by decide⟩)
    (by simp [List.length_append]; omega)
    hk2

/-- The strict search on a broad legacy match text succeeds at position 0
and returns the text with the version suffix truncated to at most one
digit. -/
theorem reSearchStrictOnLegacy (cs d7 vt VT : List Char)
    (hne : cs ≠ []) (hcs : ∀ c ∈ cs, ccMatch .adw c = true)
    (h7 : d7.length = 7) (hd7 : ∀ c ∈ d7, ccMatch .digit c = true)
    (hvt : (vt = [] ∧ VT = []) ∨
      (∃ j ds, vt = 'v' :: j :: ds ∧ ccMatch .digit j = true ∧ VT = ['v', j])) :
    reSearch strictRe (cs ++ '/' :: (d7 ++ vt)) =
      some (cs ++ '/' :: (d7 ++ VT)) := by
  obtain ⟨leftover, hvt2, hsplit⟩ :
      ∃ leftover,
        ((vt = [] ∧ leftover = []) ∨
          (∃ j ds, vt = 'v' :: j :: ds ∧ ccMatch .digit j = true ∧ leftover = ds)) ∧
        cs ++ '/' :: (d7 ++ vt) = (cs ++ '/' :: (d7 ++ VT)) ++ leftover := by
    rcases hvt with ⟨rfl, rfl⟩ | ⟨j, ds, rfl, hj, rfl⟩
    · exact ⟨[], Or.inl ⟨rfl, rfl⟩, by simp⟩
    · exact ⟨ds, Or.inr ⟨j, ds, rfl, hj, rfl⟩, by simp⟩
  have hm := mchStrictLegacyEval cs d7 vt leftover hne hcs h7 hd7 hvt2
  have hmalt : mch strictRe (cs ++ '/' :: (d7 ++ vt)) Option.some = some leftover := by
    rw [strictRe]
    rw [mch_alt_none (mchStrictModernFailOnLegacy cs d7 vt hcs)]
    exact hm
  have ht := tryAtSome hmalt
  rw [hsplit, takeAppendSub] at ht
  rw [hsplit]
  obtain ⟨c, cs2, rfl⟩ : ∃ c cs2, cs = c :: cs2 := by
    cases cs with
    | nil => exact absurd rfl hne
    | cons c cs2 => exact ⟨c, cs2, rfl⟩
  simp only [List.cons_append] at ht ⊢
  exact reSearch_cons_some ht

/-- Every member of a starred character class is a word over that class
(auxiliary form with a generalized regex index). -/
theorem langStarClsAux : ∀ (r : Regex) (u : List Char), lang r u →
    ∀ (cc : CC), r = .star (.cls cc) → ∀ c ∈ u, ccMatch cc c = true := by
  intro r u h
  induction h with
  | eps => intro cc heq; simp at heq
  | cls _ => intro cc heq; simp at heq
  | cat _ _ => intro cc heq; simp at heq
  | altL _ => intro cc heq; simp at heq
  | altR _ => intro cc heq; simp at heq
  | starNil => intro cc _ c hc; simp at hc
  | starCons h1 h2 ih1 ih2 =>
    intro cc heq c hc
    injection heq with heq2
    subst heq2
    rcases List.mem_append.mp hc with hcu | hcv
    · cases h1 with
      | cls hm =>
        simp only [List.mem_singleton] at hcu
        subst hcu
        exact hm
    · exact ih2 cc rfl c hcv

/-- Every member of a starred character class is a word over that class. -/
theorem langStarCls {cc : CC} {u : List Char} (h : lang (.star (.cls cc)) u) :
    ∀ c ∈ u, ccMatch cc c = true :=
  langStarClsAux _ _ h cc rfl

/-- Inversion for `\d{n}`: an accepted word is `n` digits. -/
theorem langDigitsNInv : ∀ (n : Nat) (u : List Char), lang (digitsN n) u →
    u.length = n ∧ ∀ c ∈ u, ccMatch .digit c = true := by
  intro n
  induction n with
  | zero =>
    intro u h
    simp only [digitsN] at h
    cases h
    exact ⟨rfl, by simp⟩
  | succ m ih =>
    intro u h
    simp only [digitsN] at h
    cases h with
    | cat ha hb =>
      rw [dig] at ha
      cases ha with
      | cls hm =>
        obtain ⟨hl, hd⟩ := ih _ hb
        constructor
        · simp [hl]
        · intro c hc
          simp only [List.cons_append, List.nil_append, List.mem_cons] at hc
          rcases hc with rfl | hc
          · exact hm
          · exact hd c hc

/-- Construction for `\d{n}`: `n` digits are accepted. -/
theorem langDigitsNOf : ∀ (n : Nat) (u : List Char), u.length = n →
    (∀ c ∈ u, ccMatch .digit c = true) → lang (digitsN n) u := by
  intro n
  induction n with
  | zero =>
    intro u hl _
    have hu : u = [] := List.length_eq_zero.mp hl
    subst hu
    simp only [digitsN]
    exact lang.eps
  | succ m ih =>
    intro u hl hd
    cases u with
    | nil => simp at hl
    | cons c t =>
      have h1 : lang dig [c] := by
        rw [dig]
        exact lang.cls (hd c (by simp))
      have h2 := ih t (by simpa using hl) (fun x hx => hd x (by simp [hx]))
      have := lang.cat h1 h2
      simpa [digitsN] using this

/-- Construction for a starred character class. -/
theorem langStarClsOf (cc : CC) : ∀ (u : List Char),
    (∀ c ∈ u, ccMatch cc c = true) → lang (.star (.cls cc)) u := by
  intro u
  induction u with
  | nil => intro _; exact lang.starNil
  | cons c t ih =>
    intro hd
    have h1 : lang (.cls cc) [c] := lang.cls (hd c (by simp))
    have h2 := ih (fun x hx => hd x (by simp [hx]))
    have := lang.starCons h1 h2
    simpa using this

/-- Inversion for the greedy optional digit. -/
theorem langOptDigInv {u : List Char} (h : lang (ropt dig) u) :
    u = [] ∨ ∃ i, u = [i] ∧ ccMatch .digit i = true := by
  rw [ropt] at h
  cases h with
  | altL h1 =>
    rw [dig] at h1
    cases h1 with
    | cls hm => exact Or.inr ⟨_, rfl, hm⟩
  | altR h1 =>
    cases h1
    exact Or.inl rfl

/-- Inversion for `(v\d+)?`. -/
theorem langVPlusInv {u : List Char} (h : lang vSuffixPlus u) :
    u = [] ∨ ∃ j ds, u = 'v' :: j :: ds ∧ ccMatch .digit j = true ∧
      ∀ c ∈ ds, ccMatch .digit c = true := by
  rw [vSuffixPlus, ropt] at h
  cases h with
  | altR h1 =>
    cases h1
    exact Or.inl rfl
  | altL h1 =>
    cases h1 with
    | cat ha hb =>
      rw [chr] at ha
      cases ha with
      | cls hm =>
        have hv := (by simpa [ccMatch] using hm : _ = 'v')
        subst hv
        cases hb with
        | cat hc hd =>
          rw [dig] at hc
          cases hc with
          | cls hj =>
            rw [dig] at hd
            refine Or.inr ⟨_, _, ?_, hj, langStarCls hd⟩
            simp

/-- Inversion for `[a-zA-Z.-]+`. -/
theorem langPlusAdwInv {u : List Char} (h : lang (rplus adwC) u) :
    u ≠ [] ∧ ∀ c ∈ u, ccMatch .adw c = true := by
  rw [rplus] at h
  cases h with
  | cat ha hb =>
    rw [adwC] at ha
    cases ha with
    | cls hm =>
      rw [adwC] at hb
      have hstar := langStarCls hb
      constructor
      · simp
      · intro c hc
        simp only [List.cons_append, List.nil_append, List.mem_cons] at hc
        rcases hc with rfl | hc
        · exact hm
        · exact hstar c hc

/-- Inversion for the modern broad shape `\d{4}\.\d{4,5}(v\d+)?`. -/
theorem langShape1Inv {m : List Char} (h : lang shape1 m) :
    ∃ u1 u2 o vt, m = u1 ++ '.' :: (u2 ++ (o ++ vt)) ∧
      u1.length = 4 ∧ (∀ c ∈ u1, ccMatch .digit c = true) ∧
      u2.length = 4 ∧ (∀ c ∈ u2, ccMatch .digit c = true) ∧
      (o = [] ∨ ∃ i, o = [i] ∧ ccMatch .digit i = true) ∧
      (vt = [] ∨ ∃ j ds, vt = 'v' :: j :: ds ∧ ccMatch .digit j = true ∧
        ∀ c ∈ ds, ccMatch .digit c = true) := by
  rw [shape1] at h
  cases h with
  | cat h1 hrest =>
    obtain ⟨hl1, hd1⟩ := langDigitsNInv _ _ h1
    cases hrest with
    | cat hdot hrest2 =>
      rw [chr] at hdot
      cases hdot with
      | cls hm =>
        have hc := (by simpa [ccMatch] using hm : _ = '.')
        subst hc
        cases hrest2 with
        | cat h2 hrest3 =>
          obtain ⟨hl2, hd2⟩ := langDigitsNInv _ _ h2
          cases hrest3 with
          | cat hopt hv =>
            exact ⟨_, _, _, _, by simp, hl1, hd1, hl2, hd2,
              langOptDigInv hopt, langVPlusInv hv⟩

/-- Inversion for the legacy broad shape `[a-zA-Z.-]+/\d{7}(v\d+)?`. -/
theorem langShape2Inv {m : List Char} (h : lang shape2 m) :
    ∃ cs d7 vt, m = cs ++ '/' :: (d7 ++ vt) ∧
      cs ≠ [] ∧ (∀ c ∈ cs, ccMatch .adw c = true) ∧
      d7.length = 7 ∧ (∀ c ∈ d7, ccMatch .digit c = true) ∧
      (vt = [] ∨ ∃ j ds, vt = 'v' :: j :: ds ∧ ccMatch .digit j = true ∧
        ∀ c ∈ ds, ccMatch .digit c = true) := by
  rw [shape2] at h
  cases h with
  | cat h1 hrest =>
    obtain ⟨hne, hcs⟩ := langPlusAdwInv h1
    cases hrest with
    | cat hsl hrest2 =>
      rw [chr] at hsl
      cases hsl with
      | cls hm =>
        have hc := (by simpa [ccMatch] using hm : _ = '/')
        subst hc
        cases hrest2 with
        | cat h7 hv =>
          obtain ⟨hl7, hd7⟩ := langDigitsNInv _ _ h7
          exact ⟨_, _, _, by simp, hne, hcs, hl7, hd7, langVPlusInv hv⟩

/-- Construction for `(v\d+)?` at an empty or single-digit version
suffix. -/
theorem langVPlusOf {VT : List Char}
    (h : VT = [] ∨ ∃ j, VT = ['v', j] ∧ ccMatch .digit j = true) :
    lang vSuffixPlus VT := by
  rcases h with rfl | ⟨j, rfl, hj⟩
  · rw [vSuffixPlus, ropt]
    exact lang.altR lang.eps
  · rw [vSuffixPlus, ropt]
    apply lang.altL
    have h1 : lang (chr 'v') ['v'] := by
      rw [chr]
      exact lang.cls (by decide)
    have h2 : lang dig [j] := by
      rw [dig]
      exact lang.cls hj
    have := lang.cat h1 (lang.cat h2 (lang.starNil : lang (.star dig) []))
    simpa using this

/-- Construction for the greedy optional digit. -/
theorem langOptDigOf {o : List Char}
    (ho : o = [] ∨ ∃ i, o = [i] ∧ ccMatch .digit i = true) :
    lang (ropt dig) o := by
  rcases ho with rfl | ⟨i, rfl, hi⟩
  · rw [ropt]
    exact lang.altR lang.eps
  · rw [ropt]
    apply lang.altL
    rw [dig]
    exact lang.cls hi

/-- Construction for the modern broad shape. -/
theorem langShape1Of (u1 u2 o VT : List Char)
    (h1 : u1.length = 4) (hd1 : ∀ c ∈ u1, ccMatch .digit c = true)
    (h2 : u2.length = 4) (hd2 : ∀ c ∈ u2, ccMatch .digit c = true)
    (ho : o = [] ∨ ∃ i, o = [i] ∧ ccMatch .digit i = true)
    (hVT : VT = [] ∨ ∃ j, VT = ['v', j] ∧ ccMatch .digit j = true) :
    lang shape1 (u1 ++ '.' :: (u2 ++ (o ++ VT))) := by
  rw [shape1]
  have hdot : lang (chr '.') ['.'] := by
    rw [chr]
    exact lang.cls (by decide)
  have := lang.cat (langDigitsNOf 4 u1 h1 hd1)
    (lang.cat hdot
      (lang.cat (langDigitsNOf 4 u2 h2 hd2)
        (lang.cat (langOptDigOf ho) (langVPlusOf hVT))))
  simpa using this

/-- Construction for the legacy broad shape. -/
theorem langShape2Of (cs d7 VT : List Char)
    (hne : cs ≠ []) (hcs : ∀ c ∈ cs, ccMatch .adw c = true)
    (h7 : d7.length = 7) (hd7 : ∀ c ∈ d7, ccMatch .digit c = true)
    (hVT : VT = [] ∨ ∃ j, VT = ['v', j] ∧ ccMatch .digit j = true) :
    lang shape2 (cs ++ '/' :: (d7 ++ VT)) := by
  rw [shape2]
  obtain ⟨c, cs2, rfl⟩ : ∃ c cs2, cs = c :: cs2 := by
    cases cs with
    | nil => exact absurd rfl hne
    | cons c cs2 => exact ⟨c, cs2, rfl⟩
  have hplus : lang (rplus adwC) (c :: cs2) := by
    rw [rplus, adwC]
    have h1 : lang (.cls .adw) [c] := lang.cls (hcs c (by simp))
    have h2 := langStarClsOf .adw cs2 (fun x hx => hcs x (by simp [hx]))
    have := lang.cat h1 h2
    simpa using this
  have hsl : lang (chr '/') ['/'] := by
    rw [chr]
    exact lang.cls (by decide)
  have := lang.cat hplus
    (lang.cat hsl (lang.cat (langDigitsNOf 7 d7 h7 hd7) (langVPlusOf hVT)))
  simpa using this

/-- C9: whenever the broad regex search succeeds, the stricter regex
search applied to the broad match text also succeeds, so the fallback
branch of `_extract_arxiv_id` that returns the broad match unchanged is
unreachable. -/
theorem c9_fallback_unreachable (s m : List Char)
    (h : reSearch broadRe s = some m) :
    ∃ core, reSearch strictRe m = some core := by
  have hl := reSearchSound broadRe s m h
  rw [broadRe] at hl
  cases hl with
  | altL h1 =>
    obtain ⟨u1, u2, o, vt, rfl, hl1, hd1, hl2, hd2, ho, hv⟩ := langShape1Inv h1
    rcases hv with rfl | ⟨j, ds, rfl, hj, hds⟩
    · exact ⟨_, reSearchStrictOnModern u1 u2 o [] [] hl1 hd1 hl2 hd2 ho
        (Or.inl ⟨rfl, rfl⟩)⟩
    · exact ⟨_, reSearchStrictOnModern u1 u2 o _ ['v', j] hl1 hd1 hl2 hd2 ho
        (Or.inr ⟨j, ds, rfl, hj, rfl⟩)⟩
  | altR h1 =>
    obtain ⟨cs, d7, vt, rfl, hne, hcs, hl7, hd7, hv⟩ := langShape2Inv h1
    rcases hv with rfl | ⟨j, ds, rfl, hj, hds⟩
    · exact ⟨_, reSearchStrictOnLegacy cs d7 [] [] hne hcs hl7 hd7
        (Or.inl ⟨rfl, rfl⟩)⟩
    · exact ⟨_, reSearchStrictOnLegacy cs d7 _ ['v', j] hne hcs hl7 hd7
        (Or.inr ⟨j, ds, rfl, hj, rfl⟩)⟩

/-- C9 witness: the broad search on a concrete modern id, with the strict
search succeeding inside the broad match. -/
theorem c9_fallback_unreachable_witness :
    ∃ core, reSearch strictRe
      ['2', '3', '0', '3', '.', '1', '0', '1', '3', '0'] = some core :=
  c9_fallback_unreachable ['2', '3', '0', '3', '.', '1', '0', '1', '3', '0']
    ['2', '3', '0', '3', '.', '1', '0', '1', '3', '0'] (by decide)

/-- C4: a non-empty extractor result always matches one of the two
canonical arXiv id shapes in full (hence carries no surrounding
whitespace, URL scheme, or path prefix beyond what the legacy category
segment permits). -/
theorem c4_output_canonical (s o : String) (h : _extract_arxiv_id s = some o) :
    lang shape1 o.data ∨ lang shape2 o.data := by
  cases hb : reSearch broadRe s.data with
  | none =>
    rw [_extract_arxiv_id, hb] at h
    exact absurd h (by simp)
  | some m =>
    have hl := reSearchSound broadRe s.data m hb
    rw [broadRe] at hl
    cases hl with
    | altL h1 =>
      obtain ⟨u1, u2, oo, vt, rfl, hl1, hd1, hl2, hd2, ho, hv⟩ := langShape1Inv h1
      rcases hv with rfl | ⟨j, ds, rfl, hj, hds⟩
      · have hst := reSearchStrictOnModern u1 u2 oo [] [] hl1 hd1 hl2 hd2 ho
          (Or.inl ⟨rfl, rfl⟩)
        have hval : _extract_arxiv_id s =
            some (String.mk (u1 ++ '.' :: (u2 ++ (oo ++ [])))) := by
          simp only [_extract_arxiv_id, hb, hst]
        rw [hval] at h
        injection h with h2
        subst h2
        exact Or.inl (langShape1Of u1 u2 oo [] hl1 hd1 hl2 hd2 ho (Or.inl rfl))
      · have hst := reSearchStrictOnModern u1 u2 oo _ ['v', j] hl1 hd1 hl2 hd2 ho
          (Or.inr ⟨j, ds, rfl, hj, rfl⟩)
        have hval : _extract_arxiv_id s =
            some (String.mk (u1 ++ '.' :: (u2 ++ (oo ++ ['v', j])))) := by
          simp only [_extract_arxiv_id, hb, hst]
        rw [hval] at h
        injection h with h2
        subst h2
        exact Or.inl (langShape1Of u1 u2 oo ['v', j] hl1 hd1 hl2 hd2 ho
          (Or.inr ⟨j, rfl, hj⟩))
    | altR h1 =>
      obtain ⟨cs, d7, vt, rfl, hne, hcs, hl7, hd7, hv⟩ := langShape2Inv h1
      rcases hv with rfl | ⟨j, ds, rfl, hj, hds⟩
      · have hst := reSearchStrictOnLegacy cs d7 [] [] hne hcs hl7 hd7
          (Or.inl ⟨rfl, rfl⟩)
        have hval : _extract_arxiv_id s = some (String.mk (cs ++ '/' :: (d7 ++ []))) := by
          simp only [_extract_arxiv_id, hb, hst]
        rw [hval] at h
        injection h with h2
        subst h2
        exact Or.inr (langShape2Of cs d7 [] hne hcs hl7 hd7 (Or.inl rfl))
      · have hst := reSearchStrictOnLegacy cs d7 _ ['v', j] hne hcs hl7 hd7
          (Or.inr ⟨j, ds, rfl, hj, rfl⟩)
        have hval : _extract_arxiv_id s =
            some (String.mk (cs ++ '/' :: (d7 ++ ['v', j]))) := by
          simp only [_extract_arxiv_id, hb, hst]
        rw [hval] at h
        injection h with h2
        subst h2
        exact Or.inr (langShape2Of cs d7 ['v', j] hne hcs hl7 hd7
          (Or.inr ⟨j, rfl, hj⟩))

/-- C4 witness: the invariant at a concrete extraction. -/
theorem c4_output_canonical_witness :
    lang shape1 ("2303.10130" : String).data ∨
      lang shape2 ("2303.10130" : String).data :=
  c4_output_canonical "2303.10130" "2303.10130" (by decide)
